import Mathlib

/-!
# SineGenerator: the synthesis core of `SineGenerator.cpp`

A shallow embedding of `MainWindow::calc_buffer`, `MainWindow::MessageReceived`
and `MainWindow::freq_callback`, followed by the properties of the buffer-fill
operation.

Modelling conventions.

* `float` values (amplitudes, frequency controls, phases, `Divisor`) are read as
  exact numbers of an ordered field `K` with a floor function, the reading the
  specification gives them ("real number"). Every definition is generic in `K`,
  so it runs on `ℚ` and is stated on `ℝ`; rounding of IEEE arithmetic is not
  modelled.
* `sin` and `M_PI` come from `<math.h>`, which is not part of the program; they
  are parameters of the model (`Real.sin` and `Real.pi` in the intended reading).
  The loop `while (phi > 2.0f * M_PI) phi -= 2.0f * M_PI` needs `0 < M_PI` to
  terminate, so the definitions carry that fact.
* `int` is read as `ℤ`. For slider values in `[0, 1]` the generated sample has
  magnitude at most `4 * 32767` (see `mixSample_bound`), so no 32-bit
  operation of the program leaves its range. The narrowing store into the
  `int16` buffer is modelled explicitly by `toInt16`.
* The output buffer is the list of `int16` values starting at `buf`; running past
  its end has no defined result and is `none`.
-/

namespace SineGenerator

section Model

variable {K : Type} [LinearOrderedField K] [FloorRing K]

/-- Sample frequency in Hz (`SAMPLE_FREQ`, line 16). -/
def SAMPLE_FREQ {K : Type} [LinearOrderedField K] : K := 44100

/-- Phase angles `phi0 .. phi3` of the window object (line 49). -/
structure Phases (K : Type) where
  phi0 : K
  phi1 : K
  phi2 : K
  phi3 : K

/-- What `ampl_slider[i]->Value()` and `freq_slider[i]->Value()` return. -/
structure Sliders (K : Type) where
  ampl0 : K
  ampl1 : K
  ampl2 : K
  ampl3 : K
  freq0 : K
  freq1 : K
  freq2 : K
  freq3 : K

/-- The state read and written by the synthesis core: the slider values, the
members `phi0 .. phi3` and `reset_phase` of `MainWindow`, and the global
`Divisor` (line 19). -/
structure MainWindow (K : Type) where
  sliders : Sliders K
  phi : Phases K
  reset_phase : Bool
  Divisor : K

/-- The locals `ampl0, freq0, .., ampl3, freq3` of `calc_buffer` (lines 245-252):
amplitudes and frequencies in Hertz. -/
structure Voices (K : Type) where
  ampl0 : K
  freq0 : K
  ampl1 : K
  freq1 : K
  ampl2 : K
  freq2 : K
  ampl3 : K
  freq3 : K

/-- The conversion `(int)x` of C: truncation toward zero. -/
def toInt (x : K) : Int :=
  if 0 ≤ x then ⌊x⌋ else ⌈x⌉

/-- The conversion of an `int` to `int16` done by the store `*buf++ = val`:
reduction modulo `2^16` into `[-32768, 32767]`. -/
def toInt16 (v : Int) : Int :=
  (v + 32768) % 65536 - 32768

/-- Slider value to Hertz, the expression `val * SAMPLE_FREQ / Divisor` of
lines 216, 246, 248, 250 and 252. -/
def hertz {K : Type} [LinearOrderedField K] (val Divisor : K) : K :=
  val * SAMPLE_FREQ / Divisor

/-- The per-sample phase increment `2.0f * M_PI * freq / SAMPLE_FREQ`
(lines 285, 288, 291, 294). -/
def phaseStep {K : Type} [LinearOrderedField K] (M_PI freq : K) : K :=
  2 * M_PI * freq / SAMPLE_FREQ

/-- The loop `while (phi > 2.0f * M_PI) phi -= 2.0f * M_PI;`
(lines 286-287 and its three copies). -/
def wrapPhase {K : Type} [LinearOrderedField K] [FloorRing K] (M_PI : K) (hpi : 0 < M_PI)
    (phi : K) : K :=
  if _h : phi > 2 * M_PI then wrapPhase M_PI hpi (phi - 2 * M_PI) else phi
termination_by (⌈phi / (2 * M_PI)⌉).toNat
decreasing_by
  have h2 : (0 : K) < 2 * M_PI := by linarith
  have hdiv : (phi - 2 * M_PI) / (2 * M_PI) = phi / (2 * M_PI) - 1 := by
    field_simp
  have hgt : (1 : K) < phi / (2 * M_PI) := by
    rw [lt_div_iff₀ h2]
    linarith
  have hceil : (1 : Int) < ⌈phi / (2 * M_PI)⌉ := by
    have := Int.le_ceil (phi / (2 * M_PI))
    have h1 : ((1 : Int) : K) < ((⌈phi / (2 * M_PI)⌉ : Int) : K) := by
      push_cast
      linarith
    exact_mod_cast h1
  rw [hdiv, Int.ceil_sub_one]
  omega

/-- Lines 263-266: mix the four sine waves and convert the elongation to `int`. -/
def mixSample (sin : K → K) (v : Voices K) (p : Phases K) : Int :=
  let x := v.ampl0 * sin p.phi0 + v.ampl1 * sin p.phi1 + v.ampl2 * sin p.phi2
    + v.ampl3 * sin p.phi3
  toInt (x * 32767)

/-- Lines 269-274 (left) and 277-282 (right): add `data` to the stored value,
clip, and store as `int16`. -/
def mixChannel (old data : Int) : Int :=
  let val := old + data
  let val := if val > 32767 then 32767 else val
  let val := if val < -32768 then -32768 else val
  toInt16 val

/-- Lines 285-296: advance the four phase angles by one sample. -/
def updatePhases (M_PI : K) (hpi : 0 < M_PI) (v : Voices K) (p : Phases K) : Phases K :=
  { phi0 := wrapPhase M_PI hpi (p.phi0 + phaseStep M_PI v.freq0)
    phi1 := wrapPhase M_PI hpi (p.phi1 + phaseStep M_PI v.freq1)
    phi2 := wrapPhase M_PI hpi (p.phi2 + phaseStep M_PI v.freq2)
    phi3 := wrapPhase M_PI hpi (p.phi3 + phaseStep M_PI v.freq3) }

/-- The loop `while (count--) { .. }` of lines 260-297, run for `n` frames on
the values found at `buf`. The result is the final phase angles and the values
at `buf` after the loop, or `none` when fewer than `2 * n` values are there. -/
def fillLoop (sin : K → K) (M_PI : K) (hpi : 0 < M_PI) (v : Voices K) :
    Nat → Phases K → List Int → Option (Phases K × List Int)
  | 0, p, buf => some (p, buf)
  | n + 1, p, l :: r :: rest =>
    let data := mixSample sin v p
    (fillLoop sin M_PI hpi v n (updatePhases M_PI hpi v p) rest).map
      fun res => (res.1, mixChannel l data :: mixChannel r data :: res.2)
  | _ + 1, _, _ => none

/-- The locals computed at the top of `calc_buffer` (lines 245-252). -/
def voices (w : MainWindow K) : Voices K :=
  { ampl0 := w.sliders.ampl0
    freq0 := hertz w.sliders.freq0 w.Divisor
    ampl1 := w.sliders.ampl1
    freq1 := hertz w.sliders.freq1 w.Divisor
    ampl2 := w.sliders.ampl2
    freq2 := hertz w.sliders.freq2 w.Divisor
    ampl3 := w.sliders.ampl3
    freq3 := hertz w.sliders.freq3 w.Divisor }

/-- The phase angles after the reset test of lines 254-257. -/
def entryPhases (w : MainWindow K) : Phases K :=
  if w.reset_phase then { phi0 := 0, phi1 := 0, phi2 := 0, phi3 := 0 } else w.phi

/-- The function `MainWindow::calc_buffer(int16 *buf, size_t count)` (lines 243-298);
`count` is in bytes. -/
def calc_buffer (sin : K → K) (M_PI : K) (hpi : 0 < M_PI) (w : MainWindow K)
    (buf : List Int) (count : Nat) : Option (MainWindow K × List Int) :=
  let v := voices w
  let p := entryPhases w
  let count := count >>> 2
  (fillLoop sin M_PI hpi v count p buf).map
    fun res => ({ w with phi := res.1, reset_phase := false }, res.2)

/-- The phase angles at the start of frame `n` of the loop of `calc_buffer`,
when it is entered with the angles `p`: `n` phase updates applied to `p`. -/
def phasesAfter (M_PI : K) (hpi : 0 < M_PI) (v : Voices K) : Nat → Phases K → Phases K
  | 0, p => p
  | n + 1, p => phasesAfter M_PI hpi v n (updatePhases M_PI hpi v p)

/-- The `int` added to both channels at each of the first `n` frames of the loop
of `calc_buffer`, when it is entered with the angles `p`. -/
def generated (sin : K → K) (M_PI : K) (hpi : 0 < M_PI) (v : Voices K) :
    Nat → Phases K → List Int
  | 0, _ => []
  | n + 1, p => mixSample sin v p :: generated sin M_PI hpi v n (updatePhases M_PI hpi v p)

/-- The messages `MainWindow::MessageReceived` distinguishes (lines 189-205). -/
inductive Message where
  | MSG_DIVISOR
  | MSG_RESET_PHASE
  | other

/-- The function `MainWindow::MessageReceived` (lines 187-206). After a divisor change the
sliders are set to the values they already have, which only redraws the
displayed frequency. -/
def MessageReceived (w : MainWindow K) : Message → MainWindow K
  | Message.MSG_DIVISOR => { w with Divisor := if w.Divisor ≠ 4 then 4 else 40 }
  | Message.MSG_RESET_PHASE => { w with reset_phase := true }
  | Message.other => w

/-- The state the constructor leaves (lines 112-135, and line 19 for `Divisor`):
first voice at amplitude 0.5, every frequency slider at the 1000 Hz position,
a phase reset pending. The constructor does not write the phase angles, so
they are whatever `junk` was in memory. -/
def initialWindow (junk : Phases K) : MainWindow K :=
  { sliders :=
      { ampl0 := 1 / 2
        ampl1 := 0
        ampl2 := 0
        ampl3 := 0
        freq0 := 1000 / (SAMPLE_FREQ / 4)
        freq1 := 1000 / (SAMPLE_FREQ / 4)
        freq2 := 1000 / (SAMPLE_FREQ / 4)
        freq3 := 1000 / (SAMPLE_FREQ / 4) }
    phi := junk
    reset_phase := true
    Divisor := 4 }

/-- Modelled from the spec: `TSliderView` is not among the sources; the data
model gives every amplitude and every frequency control the range `[0, 1]`. -/
def Sliders.inRange (s : Sliders K) : Prop :=
  (0 ≤ s.ampl0 ∧ s.ampl0 ≤ 1) ∧ (0 ≤ s.ampl1 ∧ s.ampl1 ≤ 1)
    ∧ (0 ≤ s.ampl2 ∧ s.ampl2 ≤ 1) ∧ (0 ≤ s.ampl3 ∧ s.ampl3 ≤ 1)
    ∧ (0 ≤ s.freq0 ∧ s.freq0 ≤ 1) ∧ (0 ≤ s.freq1 ∧ s.freq1 ≤ 1)
    ∧ (0 ≤ s.freq2 ∧ s.freq2 ≤ 1) ∧ (0 ≤ s.freq3 ∧ s.freq3 ≤ 1)

instance (s : Sliders K) : Decidable s.inRange := by
  unfold Sliders.inRange
  infer_instance

/-- The four phase angles lie between `0` and `2 * M_PI`, both ends included. -/
def Phases.inTurn (M_PI : K) (p : Phases K) : Prop :=
  (0 ≤ p.phi0 ∧ p.phi0 ≤ 2 * M_PI) ∧ (0 ≤ p.phi1 ∧ p.phi1 ≤ 2 * M_PI)
    ∧ (0 ≤ p.phi2 ∧ p.phi2 ≤ 2 * M_PI) ∧ (0 ≤ p.phi3 ∧ p.phi3 ≤ 2 * M_PI)

instance (M_PI : K) (p : Phases K) : Decidable (p.inTurn M_PI) := by
  unfold Phases.inTurn
  infer_instance

/-- The states of the program: the one the constructor leaves, and the ones
reached from it by window messages, slider movements and buffer fills. -/
inductive Reachable {K : Type} [LinearOrderedField K] [FloorRing K] (sin : K → K) (M_PI : K)
    (hpi : 0 < M_PI) : MainWindow K → Prop
  | start (junk : Phases K) : Reachable sin M_PI hpi (initialWindow junk)
  | message (w : MainWindow K) (m : Message) :
      Reachable sin M_PI hpi w → Reachable sin M_PI hpi (MessageReceived w m)
  | slider (w : MainWindow K) (s : Sliders K) :
      Reachable sin M_PI hpi w → s.inRange → Reachable sin M_PI hpi { w with sliders := s }
  | fill (w w' : MainWindow K) (buf buf' : List Int) (count : Nat) :
      Reachable sin M_PI hpi w → calc_buffer sin M_PI hpi w buf count = some (w', buf') →
      Reachable sin M_PI hpi w'

/-- A window with the first two voices at full amplitude, both at the phase
angle `phase`, the other two silent, and no reset pending. -/
def twoVoiceWindow (phase : K) : MainWindow K :=
  { sliders :=
      { ampl0 := 1
        ampl1 := 1
        ampl2 := 0
        ampl3 := 0
        freq0 := 1
        freq1 := 1
        freq2 := 0
        freq3 := 0 }
    phi := { phi0 := phase, phi1 := phase, phi2 := 0, phi3 := 0 }
    reset_phase := false
    Divisor := 4 }

/-- The values at `buf` after the samples `ds` have been mixed into its first
`ds.length` frames, one sample per frame, by lines 269-282. -/
def mixInto : List Int → List Int → List Int
  | d :: ds, l :: r :: rest => mixChannel l d :: mixChannel r d :: mixInto ds rest
  | _, buf => buf

end Model

section Lemmas

variable {K : Type} [LinearOrderedField K] [FloorRing K]

theorem wrapPhase_of_le (M_PI : K) (hpi : 0 < M_PI) (phi : K) (h : phi ≤ 2 * M_PI) :
    wrapPhase M_PI hpi phi = phi := by
  rw [wrapPhase]
  simp [not_lt.mpr h]

theorem wrapPhase_of_gt (M_PI : K) (hpi : 0 < M_PI) (phi : K) (h : 2 * M_PI < phi) :
    wrapPhase M_PI hpi phi = wrapPhase M_PI hpi (phi - 2 * M_PI) := by
  rw [wrapPhase]
  simp [h]

/-- Induction along the iterations of the phase loop. -/
theorem wrapPhase_induction (M_PI : K) (hpi : 0 < M_PI) (P : K → Prop)
    (hle : ∀ phi, phi ≤ 2 * M_PI → P phi)
    (hgt : ∀ phi, 2 * M_PI < phi → P (phi - 2 * M_PI) → P phi) (phi : K) : P phi := by
  induction phi using wrapPhase.induct M_PI hpi with
  | case1 x h ih => exact hgt x h ih
  | case2 x h => exact hle x (not_lt.mp h)

theorem wrapPhase_le (M_PI : K) (hpi : 0 < M_PI) (phi : K) :
    wrapPhase M_PI hpi phi ≤ 2 * M_PI := by
  refine wrapPhase_induction M_PI hpi (fun x => wrapPhase M_PI hpi x ≤ 2 * M_PI) ?_ ?_ phi
  · intro x hx
    simpa [wrapPhase_of_le M_PI hpi x hx] using hx
  · intro x hx ih
    simpa [wrapPhase_of_gt M_PI hpi x hx] using ih

theorem wrapPhase_nonneg (M_PI : K) (hpi : 0 < M_PI) (phi : K) (h0 : 0 ≤ phi) :
    0 ≤ wrapPhase M_PI hpi phi := by
  revert h0
  refine wrapPhase_induction M_PI hpi (fun x => 0 ≤ x → 0 ≤ wrapPhase M_PI hpi x) ?_ ?_ phi
  · intro x hx h0
    simpa [wrapPhase_of_le M_PI hpi x hx] using h0
  · intro x hx ih _
    rw [wrapPhase_of_gt M_PI hpi x hx]
    exact ih (by linarith)

theorem toInt16_of_range (v : Int) (hlo : -32768 ≤ v) (hhi : v ≤ 32767) : toInt16 v = v := by
  unfold toInt16
  omega

/-- The two tests of lines 270-273 followed by the `int16` store compute the
saturating sum. -/
theorem mixChannel_eq (old data : Int) :
    mixChannel old data = max (-32768) (min (old + data) 32767) := by
  unfold mixChannel
  simp only
  by_cases h1 : old + data > 32767
  · rw [if_pos h1]
    have h2 : ¬ ((32767 : Int) < -32768) := by decide
    rw [if_neg h2, toInt16_of_range _ (by decide) (by decide)]
    omega
  · rw [if_neg h1]
    by_cases h3 : old + data < -32768
    · rw [if_pos h3, toInt16_of_range _ (by decide) (by decide)]
      omega
    · rw [if_neg h3, toInt16_of_range _ (by omega) (by omega)]
      omega

theorem toInt_zero : toInt (0 : K) = 0 := by
  simp [toInt]

theorem mixInto_length (ds buf : List Int) : (mixInto ds buf).length = buf.length := by
  induction ds generalizing buf with
  | nil => simp [mixInto]
  | cons d ds ih =>
    match buf with
    | [] => simp [mixInto]
    | [_] => simp [mixInto]
    | l :: r :: rest => simp [mixInto, ih rest]

theorem mixInto_getD (ds buf : List Int) (h : 2 * ds.length ≤ buf.length) (j : Nat) :
    (mixInto ds buf).getD j 0 =
      if j < 2 * ds.length then mixChannel (buf.getD j 0) (ds.getD (j / 2) 0)
      else buf.getD j 0 := by
  induction ds generalizing buf j with
  | nil => simp [mixInto]
  | cons d ds ih =>
    match buf, h with
    | [], h => simp at h
    | [_], h =>
      simp at h
      omega
    | l :: r :: rest, h =>
      have hrest : 2 * ds.length ≤ rest.length := by
        simp at h
        omega
      match j with
      | 0 => simp [mixInto]
      | 1 =>
        have h1 : 1 < 2 * (ds.length + 1) := by omega
        simp [mixInto, h1]
      | j + 2 =>
        have hdiv : (j + 2) / 2 = j / 2 + 1 := by omega
        have hlt : (j + 2 < 2 * (d :: ds).length) ↔ (j < 2 * ds.length) := by
          simp
          omega
        simp only [mixInto, List.getD_cons_succ, hdiv, ih rest hrest j, hlt]

theorem generated_length (sin : K → K) (M_PI : K) (hpi : 0 < M_PI) (v : Voices K)
    (n : Nat) (p : Phases K) : (generated sin M_PI hpi v n p).length = n := by
  induction n generalizing p with
  | zero => simp [generated]
  | succ n ih => simp [generated, ih]

theorem generated_getD (sin : K → K) (M_PI : K) (hpi : 0 < M_PI) (v : Voices K)
    (n : Nat) (p : Phases K) (i : Nat) (hi : i < n) :
    (generated sin M_PI hpi v n p).getD i 0 = mixSample sin v (phasesAfter M_PI hpi v i p) := by
  induction n generalizing p i with
  | zero => omega
  | succ n ih =>
    cases i with
    | zero => simp [generated, phasesAfter]
    | succ i =>
      simp only [generated, List.getD_cons_succ, phasesAfter]
      exact ih _ i (by omega)

theorem phasesAfter_add (M_PI : K) (hpi : 0 < M_PI) (v : Voices K) (n1 n2 : Nat)
    (p : Phases K) :
    phasesAfter M_PI hpi v (n1 + n2) p
      = phasesAfter M_PI hpi v n2 (phasesAfter M_PI hpi v n1 p) := by
  induction n1 generalizing p with
  | zero => simp [phasesAfter]
  | succ n ih =>
    have : n + 1 + n2 = (n + n2) + 1 := by omega
    rw [this]
    simp only [phasesAfter]
    exact ih _

theorem generated_add (sin : K → K) (M_PI : K) (hpi : 0 < M_PI) (v : Voices K)
    (n1 n2 : Nat) (p : Phases K) :
    generated sin M_PI hpi v (n1 + n2) p
      = generated sin M_PI hpi v n1 p
        ++ generated sin M_PI hpi v n2 (phasesAfter M_PI hpi v n1 p) := by
  induction n1 generalizing p with
  | zero => simp [generated, phasesAfter]
  | succ n ih =>
    have : n + 1 + n2 = (n + n2) + 1 := by omega
    rw [this]
    simp only [generated, phasesAfter, List.cons_append]
    rw [ih]

theorem mixInto_append (ds1 ds2 b1 b2 : List Int) (h : b1.length = 2 * ds1.length) :
    mixInto (ds1 ++ ds2) (b1 ++ b2) = mixInto ds1 b1 ++ mixInto ds2 b2 := by
  induction ds1 generalizing b1 with
  | nil =>
    have : b1 = [] := by
      apply List.eq_nil_of_length_eq_zero
      simpa using h
    subst this
    simp [mixInto]
  | cons d ds ih =>
    match b1, h with
    | [], h => simp at h
    | [_], h =>
      simp at h
      omega
    | l :: r :: rest, h =>
      have hrest : rest.length = 2 * ds.length := by
        simp at h
        omega
      simp [mixInto, ih rest hrest]

/-- With room for `n` frames the loop of `calc_buffer` returns: the final
angles are `n` phase updates of the entry angles, and the buffer has the
generated samples mixed into it. -/
theorem fillLoop_eq (sin : K → K) (M_PI : K) (hpi : 0 < M_PI) (v : Voices K)
    (n : Nat) (p : Phases K) (buf : List Int) (h : 2 * n ≤ buf.length) :
    fillLoop sin M_PI hpi v n p buf
      = some (phasesAfter M_PI hpi v n p, mixInto (generated sin M_PI hpi v n p) buf) := by
  induction n generalizing p buf with
  | zero => simp [fillLoop, phasesAfter, generated, mixInto]
  | succ n ih =>
    match buf, h with
    | [], h => simp at h
    | [_], h =>
      simp at h
      omega
    | l :: r :: rest, h =>
      have hrest : 2 * n ≤ rest.length := by
        simp at h
        omega
      simp [fillLoop, ih _ rest hrest, phasesAfter, generated, mixInto]

/-- With room for the frames of `count` bytes `calc_buffer` returns, and its
result is given by the phase updates and the generated samples. -/
theorem calc_buffer_eq (sin : K → K) (M_PI : K) (hpi : 0 < M_PI) (w : MainWindow K)
    (buf : List Int) (count : Nat) (h : 2 * (count / 4) ≤ buf.length) :
    calc_buffer sin M_PI hpi w buf count
      = some ({ w with
                  phi := phasesAfter M_PI hpi (voices w) (count / 4) (entryPhases w)
                  reset_phase := false },
              mixInto (generated sin M_PI hpi (voices w) (count / 4) (entryPhases w)) buf) := by
  have hshift : count >>> 2 = count / 4 := by
    rw [Nat.shiftRight_eq_div_pow]
  unfold calc_buffer
  simp only [hshift]
  rw [fillLoop_eq sin M_PI hpi (voices w) (count / 4) (entryPhases w) buf h]
  rfl

theorem fillLoop_none (sin : K → K) (M_PI : K) (hpi : 0 < M_PI) (v : Voices K)
    (n : Nat) (p : Phases K) (buf : List Int) (h : buf.length < 2 * n) :
    fillLoop sin M_PI hpi v n p buf = none := by
  induction n generalizing p buf with
  | zero => omega
  | succ n ih =>
    match buf, h with
    | [], _ => simp [fillLoop]
    | [_], _ => simp [fillLoop]
    | l :: r :: rest, h =>
      have hrest : rest.length < 2 * n := by
        simp at h
        omega
      simp [fillLoop, ih _ rest hrest]

/-- Whenever `calc_buffer` returns, the buffer had room for the frames, and the
result is the one of `calc_buffer_eq`. -/
theorem calc_buffer_result (sin : K → K) (M_PI : K) (hpi : 0 < M_PI) (w w' : MainWindow K)
    (buf buf' : List Int) (count : Nat)
    (h : calc_buffer sin M_PI hpi w buf count = some (w', buf')) :
    2 * (count / 4) ≤ buf.length
      ∧ w' = { w with
                phi := phasesAfter M_PI hpi (voices w) (count / 4) (entryPhases w)
                reset_phase := false }
      ∧ buf' = mixInto (generated sin M_PI hpi (voices w) (count / 4) (entryPhases w)) buf := by
  have hroom : 2 * (count / 4) ≤ buf.length := by
    by_contra hlt
    have hshift : count >>> 2 = count / 4 := by
      rw [Nat.shiftRight_eq_div_pow]
    have hnone := fillLoop_none sin M_PI hpi (voices w) (count / 4) (entryPhases w) buf
      (by omega)
    unfold calc_buffer at h
    simp only [hshift, hnone] at h
    simp at h
  rw [calc_buffer_eq sin M_PI hpi w buf count hroom] at h
  simp only [Option.some.injEq, Prod.mk.injEq] at h
  exact ⟨hroom, h.1.symm, h.2.symm⟩

theorem hertz_nonneg {K : Type} [LinearOrderedField K] (c D : K) (hc : 0 ≤ c) (hD : D = 4 ∨ D = 40) : 0 ≤ hertz c D := by
  unfold hertz SAMPLE_FREQ
  rcases hD with h | h <;> subst h <;> positivity

theorem phaseStep_nonneg {K : Type} [LinearOrderedField K] (M_PI f : K) (hpi : 0 < M_PI) (hf : 0 ≤ f) :
    0 ≤ phaseStep M_PI f := by
  unfold phaseStep SAMPLE_FREQ
  positivity

theorem wrapPhase_inTurn (M_PI : K) (hpi : 0 < M_PI) (x d : K) (hx : 0 ≤ x) (hd : 0 ≤ d) :
    0 ≤ wrapPhase M_PI hpi (x + d) ∧ wrapPhase M_PI hpi (x + d) ≤ 2 * M_PI :=
  ⟨wrapPhase_nonneg M_PI hpi (x + d) (by linarith), wrapPhase_le M_PI hpi (x + d)⟩

/-- One phase update keeps angles that are at least `0` between `0` and
`2 * M_PI`, when no frequency is negative. -/
theorem updatePhases_inTurn (M_PI : K) (hpi : 0 < M_PI) (v : Voices K) (p : Phases K)
    (hf : 0 ≤ v.freq0 ∧ 0 ≤ v.freq1 ∧ 0 ≤ v.freq2 ∧ 0 ≤ v.freq3) (hp : p.inTurn M_PI) :
    (updatePhases M_PI hpi v p).inTurn M_PI := by
  obtain ⟨h0, h1, h2, h3⟩ := hp
  obtain ⟨f0, f1, f2, f3⟩ := hf
  exact ⟨wrapPhase_inTurn M_PI hpi _ _ h0.1 (phaseStep_nonneg M_PI _ hpi f0),
    wrapPhase_inTurn M_PI hpi _ _ h1.1 (phaseStep_nonneg M_PI _ hpi f1),
    wrapPhase_inTurn M_PI hpi _ _ h2.1 (phaseStep_nonneg M_PI _ hpi f2),
    wrapPhase_inTurn M_PI hpi _ _ h3.1 (phaseStep_nonneg M_PI _ hpi f3)⟩

theorem phasesAfter_inTurn (M_PI : K) (hpi : 0 < M_PI) (v : Voices K) (n : Nat) (p : Phases K)
    (hf : 0 ≤ v.freq0 ∧ 0 ≤ v.freq1 ∧ 0 ≤ v.freq2 ∧ 0 ≤ v.freq3) (hp : p.inTurn M_PI) :
    (phasesAfter M_PI hpi v n p).inTurn M_PI := by
  induction n generalizing p with
  | zero => simpa [phasesAfter] using hp
  | succ n ih =>
    simp only [phasesAfter]
    exact ih _ (updatePhases_inTurn M_PI hpi v p hf hp)

/-- What holds in every state of the program: `Divisor` is 4 or 40, the
frequency controls are in `[0, 1]`, and the phase angles are between `0` and
`2 * M_PI` unless a reset is pending. -/
theorem reachable_invariant (sin : K → K) (M_PI : K) (hpi : 0 < M_PI) (w : MainWindow K)
    (hr : Reachable sin M_PI hpi w) :
    (w.Divisor = 4 ∨ w.Divisor = 40) ∧ w.sliders.inRange
      ∧ (w.reset_phase = true ∨ w.phi.inTurn M_PI) := by
  induction hr with
  | start junk =>
    refine ⟨Or.inl rfl, ?_, Or.inl rfl⟩
    simp only [Sliders.inRange, initialWindow, SAMPLE_FREQ]
    norm_num
  | message w m _ ih =>
    obtain ⟨hD, hs, hp⟩ := ih
    cases m with
    | MSG_DIVISOR =>
      refine ⟨?_, hs, hp⟩
      rcases hD with h | h
      · right
        simp [MessageReceived, h]
      · left
        simp [MessageReceived, h]
    | MSG_RESET_PHASE => exact ⟨hD, hs, Or.inl rfl⟩
    | other => exact ⟨hD, hs, hp⟩
  | slider w s _ hs ih => exact ⟨ih.1, hs, ih.2.2⟩
  | fill w w' buf buf' count _ hfill ih =>
    obtain ⟨hD, hs, hp⟩ := ih
    obtain ⟨_, hw, _⟩ := calc_buffer_result sin M_PI hpi w w' buf buf' count hfill
    subst hw
    refine ⟨hD, hs, Or.inr ?_⟩
    obtain ⟨_, _, _, _, f0, f1, f2, f3⟩ := hs
    apply phasesAfter_inTurn
    · exact ⟨hertz_nonneg _ _ f0.1 hD, hertz_nonneg _ _ f1.1 hD, hertz_nonneg _ _ f2.1 hD,
        hertz_nonneg _ _ f3.1 hD⟩
    · unfold entryPhases
      rcases hp with h | h
      · simp only [h, if_true]
        have h2 : (0 : K) ≤ 2 * M_PI := by linarith
        exact ⟨⟨le_refl _, h2⟩, ⟨le_refl _, h2⟩, ⟨le_refl _, h2⟩, ⟨le_refl _, h2⟩⟩
      · split
        · have h2 : (0 : K) ≤ 2 * M_PI := by linarith
          exact ⟨⟨le_refl _, h2⟩, ⟨le_refl _, h2⟩, ⟨le_refl _, h2⟩, ⟨le_refl _, h2⟩⟩
        · exact h

theorem mixSample_silent (sin : K → K) (v : Voices K) (p : Phases K)
    (h0 : v.ampl0 = 0) (h1 : v.ampl1 = 0) (h2 : v.ampl2 = 0) (h3 : v.ampl3 = 0) :
    mixSample sin v p = 0 := by
  simp [mixSample, h0, h1, h2, h3, toInt_zero]

theorem generated_silent (sin : K → K) (M_PI : K) (hpi : 0 < M_PI) (v : Voices K)
    (h0 : v.ampl0 = 0) (h1 : v.ampl1 = 0) (h2 : v.ampl2 = 0) (h3 : v.ampl3 = 0)
    (n : Nat) (p : Phases K) :
    generated sin M_PI hpi v n p = List.replicate n 0 := by
  induction n generalizing p with
  | zero => simp [generated]
  | succ n ih =>
    simp [generated, mixSample_silent sin v p h0 h1 h2 h3, ih, List.replicate_succ]

theorem mixInto_zeros (n m : Nat) :
    mixInto (List.replicate n 0) (List.replicate m 0) = List.replicate m 0 := by
  induction n generalizing m with
  | zero => simp [mixInto]
  | succ n ih =>
    match m with
    | 0 => simp [mixInto]
    | 1 => simp [List.replicate_succ, mixInto]
    | m + 2 =>
      have hz : mixChannel 0 0 = 0 := by decide
      simp only [List.replicate_succ, mixInto, hz]
      rw [← List.replicate_succ, ih m]
      simp [List.replicate_succ]

/-- Truncation toward zero does not leave an interval with integer ends that is
symmetric around zero. -/
theorem toInt_bounds (y : K) (m : Int) (hlo : -(m : K) ≤ y) (hhi : y ≤ (m : K)) :
    -m ≤ toInt y ∧ toInt y ≤ m := by
  unfold toInt
  split
  · rename_i h0
    have hf : (0 : Int) ≤ ⌊y⌋ := Int.floor_nonneg.mpr h0
    have hle : ((⌊y⌋ : Int) : K) ≤ (m : K) := le_trans (Int.floor_le y) hhi
    have hle2 : ⌊y⌋ ≤ m := by exact_mod_cast hle
    omega
  · rename_i h0
    have hneg : y ≤ ((0 : Int) : K) := by
      push_cast
      exact le_of_lt (not_le.mp h0)
    have hc : ⌈y⌉ ≤ 0 := Int.ceil_le.mpr hneg
    have hge : ((-m : Int) : K) ≤ ((⌈y⌉ : Int) : K) := by
      push_cast
      exact le_trans hlo (Int.le_ceil y)
    have hge2 : -m ≤ ⌈y⌉ := by exact_mod_cast hge
    omega

/-- The generated sample is bounded by 32767 times any integer bound on the sum
of the amplitudes, when no amplitude is negative and `sin` stays in `[-1, 1]`. -/
theorem mixSample_le (sin : K → K) (hsin : ∀ x, -1 ≤ sin x ∧ sin x ≤ 1) (v : Voices K)
    (p : Phases K) (a0 : 0 ≤ v.ampl0) (a1 : 0 ≤ v.ampl1) (a2 : 0 ≤ v.ampl2)
    (a3 : 0 ≤ v.ampl3) (m : Int) (hsum : v.ampl0 + v.ampl1 + v.ampl2 + v.ampl3 ≤ (m : K)) :
    -(m * 32767) ≤ mixSample sin v p ∧ mixSample sin v p ≤ m * 32767 := by
  have u0 := mul_nonneg a0 (sub_nonneg.mpr (hsin p.phi0).2)
  have u1 := mul_nonneg a1 (sub_nonneg.mpr (hsin p.phi1).2)
  have u2 := mul_nonneg a2 (sub_nonneg.mpr (hsin p.phi2).2)
  have u3 := mul_nonneg a3 (sub_nonneg.mpr (hsin p.phi3).2)
  have l0 := mul_nonneg a0 (sub_nonneg.mpr (hsin p.phi0).1)
  have l1 := mul_nonneg a1 (sub_nonneg.mpr (hsin p.phi1).1)
  have l2 := mul_nonneg a2 (sub_nonneg.mpr (hsin p.phi2).1)
  have l3 := mul_nonneg a3 (sub_nonneg.mpr (hsin p.phi3).1)
  unfold mixSample
  apply toInt_bounds
  · push_cast
    linarith
  · push_cast
    linarith

/-- For slider values in `[0, 1]` the generated sample has magnitude at most
`4 * 32767`, far inside the range of a 32-bit `int`. -/
theorem mixSample_bound (sin : K → K) (hsin : ∀ x, -1 ≤ sin x ∧ sin x ≤ 1) (w : MainWindow K)
    (hs : w.sliders.inRange) (p : Phases K) :
    -131068 ≤ mixSample sin (voices w) p ∧ mixSample sin (voices w) p ≤ 131068 := by
  obtain ⟨a0, a1, a2, a3, _⟩ := hs
  have h := mixSample_le sin hsin (voices w) p a0.1 a1.1 a2.1 a3.1 4 (by
    have e0 : (voices w).ampl0 = w.sliders.ampl0 := rfl
    have e1 : (voices w).ampl1 = w.sliders.ampl1 := rfl
    have e2 : (voices w).ampl2 = w.sliders.ampl2 := rfl
    have e3 : (voices w).ampl3 = w.sliders.ampl3 := rfl
    rw [e0, e1, e2, e3]
    push_cast
    linarith [a0.2, a1.2, a2.2, a3.2])
  omega

/-- A call with fewer than 4 bytes runs the reset test and no frame. -/
theorem calc_buffer_zero_frames (sin : K → K) (M_PI : K) (hpi : 0 < M_PI) (w : MainWindow K)
    (buf : List Int) (count : Nat) (hcount : count < 4) :
    calc_buffer sin M_PI hpi w buf count
      = some ({ w with phi := entryPhases w, reset_phase := false }, buf) := by
  have hz : count / 4 = 0 := by omega
  have h := calc_buffer_eq sin M_PI hpi w buf count (by omega)
  simp only [hz, phasesAfter, generated, mixInto] at h
  exact h

theorem getD_replicate_zero (m j : Nat) : (List.replicate m (0 : Int)).getD j 0 = 0 := by
  induction m generalizing j with
  | zero => simp
  | succ m ih =>
    cases j with
    | zero => simp [List.replicate_succ]
    | succ j => simp [List.replicate_succ, ih j]

theorem getD_in_range (v : List Int) (hv : ∀ x ∈ v, -32768 ≤ x ∧ x ≤ 32767) (j : Nat) :
    -32768 ≤ v.getD j 0 ∧ v.getD j 0 ≤ 32767 := by
  induction v generalizing j with
  | nil => simp
  | cons a rest ih =>
    cases j with
    | zero => simpa using hv a (by simp)
    | succ j =>
      simp only [List.getD_cons_succ]
      exact ih (fun x hx => hv x (by simp [hx])) j

/-- Two full-amplitude voices at a quarter turn generate `2 * 32767`: mixed into
the lowest 16-bit value this gives 32766, mixed into zero it clips to 32767. -/
theorem twoVoice_quarter_turn :
    calc_buffer Real.sin Real.pi Real.pi_pos (twoVoiceWindow (Real.pi / 2)) [-32768, -32768] 4
        = some ({ twoVoiceWindow (Real.pi / 2) with
                    phi := phasesAfter Real.pi Real.pi_pos
                      (voices (twoVoiceWindow (Real.pi / 2))) 1
                      (twoVoiceWindow (Real.pi / 2)).phi },
                [32766, 32766])
      ∧ calc_buffer Real.sin Real.pi Real.pi_pos (twoVoiceWindow (Real.pi / 2)) [0, 0] 4
        = some ({ twoVoiceWindow (Real.pi / 2) with
                    phi := phasesAfter Real.pi Real.pi_pos
                      (voices (twoVoiceWindow (Real.pi / 2))) 1
                      (twoVoiceWindow (Real.pi / 2)).phi },
                [32767, 32767]) := by
  have hs : mixSample Real.sin (voices (twoVoiceWindow (Real.pi / 2)))
      (twoVoiceWindow (Real.pi / 2)).phi = 65534 := by
    have h1 : ((1 : ℝ) + 1) * 32767 = ((65534 : Int) : ℝ) := by norm_num
    simp only [mixSample, voices, twoVoiceWindow, Real.sin_pi_div_two, Real.sin_zero,
      mul_one, mul_zero, add_zero, toInt, h1, Int.floor_intCast, Int.ceil_intCast]
    norm_num
  have hl : mixChannel (-32768) 65534 = 32766 := by decide
  have hz : mixChannel 0 65534 = 32767 := by decide
  constructor
  · rw [calc_buffer_eq _ _ _ _ _ _ (by decide)]
    have h4 : 4 / 4 = 1 := by decide
    simp only [h4, generated, mixInto, entryPhases, twoVoiceWindow, Bool.false_eq_true,
      if_false] at hs ⊢
    rw [hs, hl]
  · rw [calc_buffer_eq _ _ _ _ _ _ (by decide)]
    have h4 : 4 / 4 = 1 := by decide
    simp only [h4, generated, mixInto, entryPhases, twoVoiceWindow, Bool.false_eq_true,
      if_false] at hs ⊢
    rw [hs, hz]

end Lemmas

section Claims

variable {K : Type} [LinearOrderedField K] [FloorRing K]

/-- C9: in every state reached from the constructor by window messages, slider
movements and buffer fills, `Divisor` is 4 or 40; `MSG_DIVISOR` turns 4 into 40
and 40 into 4, so two of them in a row restore the value; `MSG_RESET_PHASE`,
other messages, slider movements and `calc_buffer` leave `Divisor` as it is. -/
theorem divisor_two_values (sin : K → K) (M_PI : K) (hpi : 0 < M_PI) (w : MainWindow K)
    (hr : Reachable sin M_PI hpi w) (s : Sliders K) (buf : List Int) (count : Nat)
    (hroom : 2 * (count / 4) ≤ buf.length) :
    (w.Divisor = 4 ∨ w.Divisor = 40)
      ∧ (w.Divisor = 4 → (MessageReceived w Message.MSG_DIVISOR).Divisor = 40)
      ∧ (w.Divisor = 40 → (MessageReceived w Message.MSG_DIVISOR).Divisor = 4)
      ∧ (MessageReceived (MessageReceived w Message.MSG_DIVISOR) Message.MSG_DIVISOR).Divisor
          = w.Divisor
      ∧ (MessageReceived w Message.MSG_RESET_PHASE).Divisor = w.Divisor
      ∧ (MessageReceived w Message.other).Divisor = w.Divisor
      ∧ ({ w with sliders := s } : MainWindow K).Divisor = w.Divisor
      ∧ ∃ w' buf', calc_buffer sin M_PI hpi w buf count = some (w', buf')
          ∧ w'.Divisor = w.Divisor := by
  have hD := (reachable_invariant sin M_PI hpi w hr).1
  refine ⟨hD, ?_, ?_, ?_, rfl, rfl, rfl, _, _, calc_buffer_eq sin M_PI hpi w buf count hroom, rfl⟩
  · intro h
    simp [MessageReceived, h]
  · intro h
    simp [MessageReceived, h]
  · rcases hD with h | h <;> simp [MessageReceived, h]

/-- C7: with all four amplitudes 0, for every frame count, phase angles,
frequency setting and reset flag, `calc_buffer` on an all-zero buffer returns an
all-zero buffer. -/
theorem silence_keeps_zero_buffer (sin : K → K) (M_PI : K) (hpi : 0 < M_PI)
    (w : MainWindow K) (h0 : w.sliders.ampl0 = 0) (h1 : w.sliders.ampl1 = 0)
    (h2 : w.sliders.ampl2 = 0) (h3 : w.sliders.ampl3 = 0) (m count : Nat)
    (hroom : 2 * (count / 4) ≤ m) :
    ∃ w', calc_buffer sin M_PI hpi w (List.replicate m 0) count
      = some (w', List.replicate m 0) := by
  have h := calc_buffer_eq sin M_PI hpi w (List.replicate m 0) count (by simpa using hroom)
  rw [generated_silent sin M_PI hpi (voices w) h0 h1 h2 h3, mixInto_zeros] at h
  exact ⟨_, h⟩

/-- C6 (amended): a call with fewer than 4 bytes writes no frame and returns the
buffer as it was; the phase angles are not advanced. With no reset pending the
whole state is unchanged; with a reset pending the reset is still applied:
the phase angles become 0 and `reset_phase` becomes false. -/
theorem zero_frames_only_reset (sin : K → K) (M_PI : K) (hpi : 0 < M_PI) (w : MainWindow K)
    (buf : List Int) (count : Nat) (hcount : count < 4) :
    calc_buffer sin M_PI hpi w buf count
        = some ({ w with phi := entryPhases w, reset_phase := false }, buf)
      ∧ (w.reset_phase = false → calc_buffer sin M_PI hpi w buf count = some (w, buf))
      ∧ (w.reset_phase = true → calc_buffer sin M_PI hpi w buf count
          = some ({ w with
                      phi := { phi0 := 0, phi1 := 0, phi2 := 0, phi3 := 0 }
                      reset_phase := false }, buf)) := by
  have h := calc_buffer_zero_frames sin M_PI hpi w buf count hcount
  refine ⟨h, ?_, ?_⟩
  · intro hr
    rw [h]
    cases w
    simp_all [entryPhases]
  · intro hr
    rw [h]
    simp [entryPhases, hr]

/-- C6 fails as stated: on the constructor state, where a reset is pending and
the phase memory holds 1, a 3-byte call does not leave the state as it was: it
zeroes the phase angles and clears `reset_phase`. -/
theorem zero_frames_consume_reset :
    calc_buffer Real.sin Real.pi Real.pi_pos
        (initialWindow { phi0 := 1, phi1 := 1, phi2 := 1, phi3 := 1 }) [5, -5] 3
      ≠ some (initialWindow { phi0 := 1, phi1 := 1, phi2 := 1, phi3 := 1 }, [5, -5])
    ∧ calc_buffer Real.sin Real.pi Real.pi_pos
        (initialWindow { phi0 := 1, phi1 := 1, phi2 := 1, phi3 := 1 }) [5, -5] 3
      = some ({ initialWindow ({ phi0 := 1, phi1 := 1, phi2 := 1, phi3 := 1 } : Phases ℝ) with
                  phi := { phi0 := 0, phi1 := 0, phi2 := 0, phi3 := 0 }
                  reset_phase := false }, [5, -5]) := by
  have h := calc_buffer_zero_frames Real.sin Real.pi Real.pi_pos
    (initialWindow { phi0 := 1, phi1 := 1, phi2 := 1, phi3 := 1 }) [5, -5] 3 (by decide)
  have he : entryPhases (initialWindow ({ phi0 := 1, phi1 := 1, phi2 := 1, phi3 := 1 } : Phases ℝ))
      = { phi0 := 0, phi1 := 0, phi2 := 0, phi3 := 0 } := by
    simp [entryPhases, initialWindow]
  rw [he] at h
  refine ⟨?_, h⟩
  rw [h]
  intro heq
  simp [initialWindow] at heq

/-- C4: when `reset_phase` is set on entry, `calc_buffer` returns what a call
starting with all four phase angles at 0 returns, whatever the angles were, and
`reset_phase` is false afterwards; the sample of the first frame is 0, so the
first frame only clamps what is in the buffer; `MSG_RESET_PHASE` is what sets
the flag. A following call starts from the angles the first call stored and
advances them, without another reset. -/
theorem reset_applied_once (sin : K → K) (M_PI : K) (hpi : 0 < M_PI) (hsin : sin 0 = 0)
    (w : MainWindow K) (hreset : w.reset_phase = true) (buf : List Int) (count : Nat)
    (hroom : 2 * (count / 4) ≤ buf.length) (buf2 : List Int) (count2 : Nat)
    (hroom2 : 2 * (count2 / 4) ≤ buf2.length) :
    (MessageReceived w Message.MSG_RESET_PHASE).reset_phase = true
      ∧ ∃ w' buf', calc_buffer sin M_PI hpi w buf count = some (w', buf')
        ∧ calc_buffer sin M_PI hpi
            { w with
                phi := { phi0 := 0, phi1 := 0, phi2 := 0, phi3 := 0 }
                reset_phase := false } buf count = some (w', buf')
        ∧ w'.reset_phase = false
        ∧ w'.phi = phasesAfter M_PI hpi (voices w) (count / 4)
            { phi0 := 0, phi1 := 0, phi2 := 0, phi3 := 0 }
        ∧ toInt ((w.sliders.ampl0 * sin 0 + w.sliders.ampl1 * sin 0 + w.sliders.ampl2 * sin 0
            + w.sliders.ampl3 * sin 0) * 32767) = 0
        ∧ (0 < count / 4 →
            buf'.getD 0 0 = max (-32768) (min (buf.getD 0 0 + 0) 32767)
              ∧ buf'.getD 1 0 = max (-32768) (min (buf.getD 1 0 + 0) 32767))
        ∧ ∃ w'' buf2', calc_buffer sin M_PI hpi w' buf2 count2 = some (w'', buf2')
          ∧ entryPhases w' = w'.phi
          ∧ w''.phi = phasesAfter M_PI hpi (voices w) (count2 / 4) w'.phi
          ∧ w''.phi = phasesAfter M_PI hpi (voices w) (count / 4 + count2 / 4)
              { phi0 := 0, phi1 := 0, phi2 := 0, phi3 := 0 } := by
  have hzero : toInt ((w.sliders.ampl0 * sin 0 + w.sliders.ampl1 * sin 0
      + w.sliders.ampl2 * sin 0 + w.sliders.ampl3 * sin 0) * 32767) = 0 := by
    simp [hsin, toInt_zero]
  have hentry : entryPhases w = { phi0 := 0, phi1 := 0, phi2 := 0, phi3 := 0 } := by
    simp [entryPhases, hreset]
  have h1 := calc_buffer_eq sin M_PI hpi w buf count hroom
  rw [hentry] at h1
  have h2 := calc_buffer_eq sin M_PI hpi
    { w with phi := { phi0 := 0, phi1 := 0, phi2 := 0, phi3 := 0 }, reset_phase := false }
    buf count hroom
  have h3 := calc_buffer_eq sin M_PI hpi
    { w with
        phi := phasesAfter M_PI hpi (voices w) (count / 4)
          { phi0 := 0, phi1 := 0, phi2 := 0, phi3 := 0 }
        reset_phase := false } buf2 count2 hroom2
  refine ⟨rfl, _, _, h1, h2, rfl, rfl, hzero, ?_, _, _, h3, rfl, rfl, ?_⟩
  · intro hpos
    have hlen := generated_length sin M_PI hpi (voices w) (count / 4)
      ({ phi0 := 0, phi1 := 0, phi2 := 0, phi3 := 0 } : Phases K)
    have hgen : (generated sin M_PI hpi (voices w) (count / 4)
        ({ phi0 := 0, phi1 := 0, phi2 := 0, phi3 := 0 } : Phases K)).getD 0 0 = 0 := by
      rw [generated_getD sin M_PI hpi (voices w) (count / 4) _ 0 hpos]
      exact hzero
    constructor
    · rw [mixInto_getD _ _ (by rw [hlen]; exact hroom), hlen, if_pos (by omega)]
      rw [hgen, mixChannel_eq]
    · rw [mixInto_getD _ _ (by rw [hlen]; exact hroom), hlen, if_pos (by omega)]
      have : 1 / 2 = 0 := by decide
      rw [this, hgen, mixChannel_eq]
  · exact (phasesAfter_add M_PI hpi (voices w) (count / 4) (count2 / 4) _).symm

/-- C2: with no reset pending, a `calc_buffer` call of `n1` frames followed by
one of `n2` frames returns the same buffer contents and the same final state as
one call of `n1 + n2` frames from the same state, and the sequence of samples
generated by the long call is the sequence of the first call followed by that
of the second. -/
theorem phase_continuity (sin : K → K) (M_PI : K) (hpi : 0 < M_PI) (w : MainWindow K)
    (hreset : w.reset_phase = false) (n1 n2 : Nat) (b1 b2 : List Int)
    (hb1 : b1.length = 2 * n1) (hb2 : 2 * n2 ≤ b2.length) :
    ∃ w1 b1' w2 b2', calc_buffer sin M_PI hpi w b1 (4 * n1) = some (w1, b1')
      ∧ calc_buffer sin M_PI hpi w1 b2 (4 * n2) = some (w2, b2')
      ∧ calc_buffer sin M_PI hpi w (b1 ++ b2) (4 * (n1 + n2)) = some (w2, b1' ++ b2')
      ∧ generated sin M_PI hpi (voices w) (n1 + n2) w.phi
          = generated sin M_PI hpi (voices w) n1 w.phi
            ++ generated sin M_PI hpi (voices w1) n2 w1.phi := by
  have e1 : 4 * n1 / 4 = n1 := by omega
  have e2 : 4 * n2 / 4 = n2 := by omega
  have e3 : 4 * (n1 + n2) / 4 = n1 + n2 := by omega
  have hentry : entryPhases w = w.phi := by
    simp [entryPhases, hreset]
  have h1 := calc_buffer_eq sin M_PI hpi w b1 (4 * n1) (by omega)
  rw [e1, hentry] at h1
  have h2 := calc_buffer_eq sin M_PI hpi
    { w with phi := phasesAfter M_PI hpi (voices w) n1 w.phi, reset_phase := false }
    b2 (4 * n2) (by omega)
  rw [e2] at h2
  have h3 := calc_buffer_eq sin M_PI hpi w (b1 ++ b2) (4 * (n1 + n2)) (by
    rw [e3, List.length_append]
    omega)
  rw [e3, hentry, generated_add, phasesAfter_add,
    mixInto_append _ _ b1 b2 (by rw [generated_length]; exact hb1)] at h3
  exact ⟨_, _, _, _, h1, h2, h3, generated_add sin M_PI hpi (voices w) n1 n2 w.phi⟩

/-- C3 (amended): for amplitudes that are not negative and sum to at most 1
(with `sin` in `[-1, 1]`), every frame count and every buffer `v` of 16-bit
values with room for the frames, each value `calc_buffer` leaves in `v` is
`clamp(v + g, -32768, 32767)`, where `g` is what the same call leaves at that
position in a zeroed buffer of the same length; both calls end in the same
state. -/
theorem additive_mixing_unclipped (sin : K → K) (M_PI : K) (hpi : 0 < M_PI)
    (hsin : ∀ x, -1 ≤ sin x ∧ sin x ≤ 1) (w : MainWindow K)
    (a0 : 0 ≤ w.sliders.ampl0) (a1 : 0 ≤ w.sliders.ampl1) (a2 : 0 ≤ w.sliders.ampl2)
    (a3 : 0 ≤ w.sliders.ampl3)
    (hsum : w.sliders.ampl0 + w.sliders.ampl1 + w.sliders.ampl2 + w.sliders.ampl3 ≤ 1)
    (v : List Int) (hv : ∀ x ∈ v, -32768 ≤ x ∧ x ≤ 32767) (count : Nat)
    (hroom : 2 * (count / 4) ≤ v.length) (j : Nat) :
    ∃ w' bv b0, calc_buffer sin M_PI hpi w v count = some (w', bv)
      ∧ calc_buffer sin M_PI hpi w (List.replicate v.length 0) count = some (w', b0)
      ∧ bv.getD j 0 = max (-32768) (min (v.getD j 0 + b0.getD j 0) 32767) := by
  have hv' := calc_buffer_eq sin M_PI hpi w v count hroom
  have h0' := calc_buffer_eq sin M_PI hpi w (List.replicate v.length 0) count
    (by simpa using hroom)
  refine ⟨_, _, _, hv', h0', ?_⟩
  have hlen := generated_length sin M_PI hpi (voices w) (count / 4) (entryPhases w)
  rw [mixInto_getD _ v (by rw [hlen]; exact hroom),
    mixInto_getD _ (List.replicate v.length 0) (by rw [hlen]; simpa using hroom), hlen,
    getD_replicate_zero]
  have hr := getD_in_range v hv j
  by_cases hj : j < 2 * (count / 4)
  · rw [if_pos hj, if_pos hj]
    have hd := generated_getD sin M_PI hpi (voices w) (count / 4) (entryPhases w) (j / 2)
      (by omega)
    have hb := mixSample_le sin hsin (voices w)
      (phasesAfter M_PI hpi (voices w) (j / 2) (entryPhases w)) a0 a1 a2 a3 1 (by
        push_cast
        exact hsum)
    rw [← hd] at hb
    rw [mixChannel_eq, mixChannel_eq]
    omega
  · rw [if_neg hj, if_neg hj]
    omega

/-- C3 fails as stated: with amplitudes 1, 1, 0, 0 (all in `[0, 1]`) and the two
sounding voices at a quarter turn, one frame mixed into the values -32768 leaves
32766, while the zeroed buffer gets 32767 and `clamp(-32768 + 32767)` is -1. -/
theorem additive_mixing_clipped_differs :
    (twoVoiceWindow (Real.pi / 2)).sliders.inRange
      ∧ (calc_buffer Real.sin Real.pi Real.pi_pos (twoVoiceWindow (Real.pi / 2))
          [-32768, -32768] 4).map Prod.snd = some [32766, 32766]
      ∧ (calc_buffer Real.sin Real.pi Real.pi_pos (twoVoiceWindow (Real.pi / 2))
          [0, 0] 4).map Prod.snd = some [32767, 32767]
      ∧ (32766 : Int) ≠ max (-32768) (min (-32768 + 32767) 32767) := by
  refine ⟨?_, ?_, ?_, by decide⟩
  · simp only [Sliders.inRange, twoVoiceWindow]
    norm_num
  · rw [twoVoice_quarter_turn.1]
    rfl
  · rw [twoVoice_quarter_turn.2]
    rfl

end Claims

section Witnesses

theorem divisor_two_values_witness :
    Reachable Real.sin Real.pi Real.pi_pos
        (initialWindow { phi0 := 0, phi1 := 0, phi2 := 0, phi3 := 0 })
      ∧ 2 * (4 / 4) ≤ [(0 : Int), 0].length
      ∧ ((initialWindow ({ phi0 := 0, phi1 := 0, phi2 := 0, phi3 := 0 } : Phases ℝ)).Divisor = 4
        ∨ (initialWindow ({ phi0 := 0, phi1 := 0, phi2 := 0, phi3 := 0 } : Phases ℝ)).Divisor
          = 40) :=
  ⟨Reachable.start _, by decide,
    (divisor_two_values Real.sin Real.pi Real.pi_pos
      (initialWindow { phi0 := 0, phi1 := 0, phi2 := 0, phi3 := 0 }) (Reachable.start _)
      (twoVoiceWindow 0).sliders [0, 0] 4 (by decide)).1⟩

theorem zero_frames_only_reset_witness :
    (0 : ℝ) < Real.pi ∧ 3 < 4
      ∧ calc_buffer Real.sin Real.pi Real.pi_pos (twoVoiceWindow (1 : ℝ)) [5, -5] 3
        = some (twoVoiceWindow (1 : ℝ), [5, -5]) :=
  ⟨Real.pi_pos, by decide,
    (zero_frames_only_reset Real.sin Real.pi Real.pi_pos (twoVoiceWindow 1) [5, -5] 3
      (by decide)).2.1 rfl⟩

theorem silence_keeps_zero_buffer_witness :
    (0 : ℝ) < Real.pi ∧ 2 * (8 / 4) ≤ 4
      ∧ ∃ w', calc_buffer Real.sin Real.pi Real.pi_pos
          { sliders :=
              { ampl0 := 0, ampl1 := 0, ampl2 := 0, ampl3 := 0
                freq0 := 1, freq1 := 1 / 2, freq2 := 1 / 3, freq3 := 0 }
            phi := { phi0 := 1, phi1 := 2, phi2 := 3, phi3 := 4 }
            reset_phase := false
            Divisor := 4 } (List.replicate 4 0) 8 = some (w', List.replicate 4 0) :=
  ⟨Real.pi_pos, by decide,
    silence_keeps_zero_buffer Real.sin Real.pi Real.pi_pos _ rfl rfl rfl rfl 4 8 (by decide)⟩

theorem phase_continuity_witness :
    (0 : ℝ) < Real.pi ∧ (twoVoiceWindow (0 : ℝ)).reset_phase = false
      ∧ [(1 : Int), 2].length = 2 * 1 ∧ 2 * 1 ≤ [(3 : Int), 4].length
      ∧ ∃ w1 b1' w2 b2',
          calc_buffer Real.sin Real.pi Real.pi_pos (twoVoiceWindow 0) [1, 2] (4 * 1)
            = some (w1, b1')
          ∧ calc_buffer Real.sin Real.pi Real.pi_pos w1 [3, 4] (4 * 1) = some (w2, b2')
          ∧ calc_buffer Real.sin Real.pi Real.pi_pos (twoVoiceWindow 0) ([1, 2] ++ [3, 4])
              (4 * (1 + 1)) = some (w2, b1' ++ b2')
          ∧ generated Real.sin Real.pi Real.pi_pos (voices (twoVoiceWindow 0)) (1 + 1)
              (twoVoiceWindow 0).phi
            = generated Real.sin Real.pi Real.pi_pos (voices (twoVoiceWindow 0)) 1
                (twoVoiceWindow 0).phi
              ++ generated Real.sin Real.pi Real.pi_pos (voices w1) 1 w1.phi :=
  ⟨Real.pi_pos, rfl, rfl, by decide,
    phase_continuity Real.sin Real.pi Real.pi_pos (twoVoiceWindow 0) rfl 1 1 [1, 2] [3, 4] rfl
      (by decide)⟩

theorem additive_mixing_unclipped_witness :
    (0 : ℝ) < Real.pi ∧ (1 / 2 : ℝ) + 0 + 0 + 0 ≤ 1
      ∧ 2 * (4 / 4) ≤ [(100 : Int), -200].length
      ∧ ∃ w' bv b0,
          calc_buffer Real.sin Real.pi Real.pi_pos
            (initialWindow ({ phi0 := 0, phi1 := 0, phi2 := 0, phi3 := 0 } : Phases ℝ))
            [100, -200] 4 = some (w', bv)
          ∧ calc_buffer Real.sin Real.pi Real.pi_pos
            (initialWindow ({ phi0 := 0, phi1 := 0, phi2 := 0, phi3 := 0 } : Phases ℝ))
            (List.replicate [(100 : Int), -200].length 0) 4 = some (w', b0)
          ∧ bv.getD 0 0
            = max (-32768) (min ([(100 : Int), -200].getD 0 0 + b0.getD 0 0) 32767) :=
  ⟨Real.pi_pos, by norm_num, by decide,
    additive_mixing_unclipped Real.sin Real.pi Real.pi_pos
      (fun x => ⟨Real.neg_one_le_sin x, Real.sin_le_one x⟩)
      (initialWindow ({ phi0 := 0, phi1 := 0, phi2 := 0, phi3 := 0 } : Phases ℝ))
      (by norm_num [initialWindow]) (by norm_num [initialWindow])
      (by norm_num [initialWindow]) (by norm_num [initialWindow])
      (by norm_num [initialWindow]) [100, -200] (by decide) 4 (by decide) 0⟩

theorem reset_applied_once_witness :
    (0 : ℝ) < Real.pi ∧ Real.sin 0 = 0
      ∧ (initialWindow ({ phi0 := 7, phi1 := 7, phi2 := 7, phi3 := 7 } : Phases ℝ)).reset_phase
        = true
      ∧ 2 * (4 / 4) ≤ [(1 : Int), 2].length ∧ 2 * (4 / 4) ≤ [(3 : Int), 4].length
      ∧ ∃ w' buf', calc_buffer Real.sin Real.pi Real.pi_pos
            (initialWindow ({ phi0 := 7, phi1 := 7, phi2 := 7, phi3 := 7 } : Phases ℝ))
            [1, 2] 4 = some (w', buf')
          ∧ calc_buffer Real.sin Real.pi Real.pi_pos
            (initialWindow ({ phi0 := 0, phi1 := 0, phi2 := 0, phi3 := 0 } : Phases ℝ))
            [1, 2] 4 = some (w', buf')
          ∧ w'.reset_phase = false := by
  obtain ⟨-, w', buf', h1, h2, h3, -⟩ := reset_applied_once Real.sin Real.pi Real.pi_pos
    Real.sin_zero
    (initialWindow ({ phi0 := 7, phi1 := 7, phi2 := 7, phi3 := 7 } : Phases ℝ)) rfl
    [1, 2] 4 (by decide) [3, 4] 4 (by decide)
  refine ⟨Real.pi_pos, Real.sin_zero, rfl, by decide, by decide, w', buf', h1, ?_, h3⟩
  rw [← h2]
  have hentry := calc_buffer_eq Real.sin Real.pi Real.pi_pos
    (initialWindow ({ phi0 := 0, phi1 := 0, phi2 := 0, phi3 := 0 } : Phases ℝ)) [1, 2] 4
    (by decide)
  have hz := calc_buffer_eq Real.sin Real.pi Real.pi_pos
    { initialWindow ({ phi0 := 7, phi1 := 7, phi2 := 7, phi3 := 7 } : Phases ℝ) with
        phi := { phi0 := 0, phi1 := 0, phi2 := 0, phi3 := 0 }
        reset_phase := false } [1, 2] 4 (by decide)
  rw [hentry, hz]
  rfl

end Witnesses

end SineGenerator
